import Mathlib

/-!
# Verification of the Nordea statement parser (`main.py`)

Shallow embedding of the repository's two source files.  Strings are
modelled as `List Char`; Python's `str.strip`, `str.rfind`, slicing and
`" ".join` are reproduced explicitly.  External collaborators (the
`dateparser` library, `pandas` row decoding and `Decimal`) are modelled
as function parameters, as the spec declares them out of scope.
-/

set_option maxHeartbeats 1000000

/-- Python `str.isspace` for the characters `strip()` removes. -/
def pyIsSpace (c : Char) : Bool :=
  c = ' ' || c = '\t' || c = '\n' || c = '\r' || c = '\x0b' || c = '\x0c'

/-- Python `str.lstrip()` on character lists. -/
def pyStripL (s : List Char) : List Char := s.dropWhile pyIsSpace

/-- Python `str.strip()` on character lists. -/
def pyStrip (s : List Char) : List Char :=
  ((s.dropWhile pyIsSpace).reverse.dropWhile pyIsSpace).reverse

/-- Python `sep.join(parts)` on character lists. -/
def pyJoin (sep : List Char) : List (List Char) → List Char
  | [] => []
  | [x] => x
  | x :: y :: xs => x ++ sep ++ pyJoin sep (y :: xs)

/-- `s[i:i+pat.length] == pat`, the occurrence test used by `str.rfind`. -/
def matchesAt (s pat : List Char) (i : Nat) : Bool :=
  decide ((s.drop i).take pat.length = pat)

/-- Python `s.rfind(pat)`: index of the rightmost occurrence, `-1` if none. -/
def rfind (s pat : List Char) : Int :=
  match ((List.range (s.length + 1)).filter (fun i => matchesAt s pat i)).getLast? with
  | some i => (i : Int)
  | none => -1

/-- An occurrence of `pat` inside `s` at index `i` (Python substring search). -/
def occursAt (s pat : List Char) (i : Nat) : Prop :=
  i + pat.length ≤ s.length ∧ (s.drop i).take pat.length = pat

instance (s pat : List Char) (i : Nat) : Decidable (occursAt s pat i) := by
  unfold occursAt; infer_instance

/-- Python `s[:i]` including negative-index semantics. -/
def pySliceTo (s : List Char) (i : Int) : List Char :=
  if 0 ≤ i then s.take i.toNat else s.take (s.length - (-i).toNat)

/-- Python `s[i:]` including negative-index semantics. -/
def pySliceFrom (s : List Char) (i : Int) : List Char :=
  if 0 ≤ i then s.drop i.toNat else s.drop (s.length - (-i).toNat)

/-- The mutable locals of `parse_amount`'s backward scanning loop
(`stack`, `groups`, `decimal`, `sign`, `has_space`, `parse_done`).
`stack` and `groups` are kept most-recent-first, so that a flushed
group (`"".join(reversed(stack))` in the source) is `stack` itself,
and `reversed(groups)` is the Lean list in order. -/
structure ScanSt where
  stack : List Char
  groups : List (List Char)
  decimal : List Char
  sign : List Char
  has_space : Bool
  parse_done : Bool
deriving Repr, DecidableEq

/-- Initial state of the scan loop. -/
def initSt : ScanSt := ⟨[], [], [], [], false, false⟩

/-- The `for ch in reversed(line.strip())` loop of `parse_amount`
(`main.py` lines 22-55), one constructor case per character class,
with `break` modelled by returning the current state. -/
def scan : List Char → ScanSt → ScanSt
  | [], st => st
  | c :: cs, st =>
    if c.isDigit then
      scan cs { st with stack := c :: st.stack }
    else if c = ',' then
      scan cs { st with decimal := st.stack, stack := [] }
    else if c = '-' then
      if st.stack.length ≤ 3 then
        { st with groups := st.stack :: st.groups, stack := [],
                  sign := ['-'], parse_done := true }
      else
        scan cs st
    else if c = ' ' then
      if st.stack.length = 3 then
        scan cs { st with groups := st.stack :: st.groups, stack := [],
                          has_space := true }
      else if st.stack.length = 0 then
        scan cs { st with has_space := true }
      else if st.stack.length < 3 then
        { st with groups := st.stack :: st.groups, stack := [],
                  parse_done := true }
      else if st.has_space then
        { st with parse_done := true }
      else
        { st with groups := st.stack :: st.groups, stack := [],
                  parse_done := true }
    else
      st

/-- The scan state `parse_amount` ends with: the loop over the reversed
stripped line, run from the initial state. -/
def scanLine (line : List Char) : ScanSt :=
  scan (pyStrip line).reverse initSt

/-- The post-loop flush (`main.py` lines 57-60): if the loop did not
explicitly terminate and digits remain, they become the final group. -/
def groupsAfter (st : ScanSt) : List (List Char) :=
  if st.parse_done = false ∧ st.stack ≠ [] then st.stack :: st.groups else st.groups

/-- `full_number` (`main.py` line 63): sign, groups joined by single
spaces, and the comma plus decimal fragment when the fragment is
non-empty.  Used for the `rfind` relocation. -/
def amountLiteral (line : List Char) : List Char :=
  let st := scanLine line
  st.sign ++ pyJoin [' '] (groupsAfter st) ++
    (if st.decimal ≠ [] then ',' :: st.decimal else [])

/-- `parse_amount` (`main.py` lines 9-65): the normalized value
`f"{integer}.{decimal}"` and the offset `line.rfind(full_number)`. -/
def parse_amount (line : List Char) : List Char × Int :=
  let st := scanLine line
  let integer := st.sign ++ pyJoin [] (groupsAfter st)
  (integer ++ '.' :: st.decimal, rfind line (amountLiteral line))

/-- Python `line.split(" ")`: split at every single space, keeping
empty pieces. -/
def splitSp : List Char → List (List Char)
  | [] => [[]]
  | ' ' :: rest => [] :: splitSp rest
  | c :: rest =>
    match splitSp rest with
    | [] => [[c]]
    | g :: gs => (c :: g) :: gs

/-- `" ".join(parts[0:3])`, the text handed to the external date parser
by `parse_date_description` (`main.py` line 74). -/
def dateTokens (line : List Char) : List Char :=
  pyJoin [' '] ((splitSp line).take 3)

/-- `" ".join(parts[3:]).strip()`, the description part of
`parse_date_description` (`main.py` line 75). -/
def descText (line : List Char) : List Char :=
  pyStrip (pyJoin [' '] ((splitSp line).drop 3))

/-- `parse_date_description` (`main.py` lines 68-76), parametrized by
the external localized date parser `dp` (`dateparser.parse`). -/
def parse_date_description {α : Type} (dp : List Char → Option α)
    (line : List Char) : Option α × List Char :=
  (dp (dateTokens line), descText line)

/-- `parse_payment_line` (`main.py` lines 79-83), parametrized by the
external date parser `dp` and the exact-decimal constructor `mkDec`. -/
def parse_payment_line {α β : Type} (dp : List Char → Option α)
    (mkDec : List Char → β) (line : List Char) : Option α × List Char × β :=
  let a := parse_amount line
  let dd := parse_date_description dp (pyStrip (pySliceTo line a.2))
  (dd.1, dd.2, mkDec a.1)

/-- One row of the semicolon-delimited debit-card table, with the three
fields `parse_debitcard` reads. -/
structure Row where
  belop : List Char
  tittel : List Char
  bokforingsdato : List Char

/-- `row["Beløp"].replace(",", ".")` (`main.py` line 102). -/
def replaceCommaDot (s : List Char) : List Char :=
  s.map (fun c => if c = ',' then '.' else c)

/-- The row loop of `parse_debitcard` (`main.py` lines 101-108): rows
whose date fails to parse are skipped via `continue`; the rest are
yielded in source order. -/
def parse_debitcard {α β : Type} (dp : List Char → Option α)
    (mkDec : List Char → β) (rows : List Row) : List (α × β × List Char) :=
  rows.filterMap (fun r =>
    match dp r.bokforingsdato with
    | none => none
    | some d => some (d, mkDec (replaceCommaDot r.belop), r.tittel))

/-- Value of a digit string as a natural number. -/
def digitsVal (ds : List Char) : Nat :=
  ds.foldl (fun a c => 10 * a + (c.toNat - 48)) 0

/-- Split a normalized decimal string `[-]digits.[digits]` into sign,
integer digits and fraction digits. -/
def decSplit (s : List Char) : Bool × List Char × List Char :=
  match s with
  | '-' :: t => (true, t.takeWhile (· ≠ '.'), (t.dropWhile (· ≠ '.')).drop 1)
  | _ => (false, s.takeWhile (· ≠ '.'), (s.dropWhile (· ≠ '.')).drop 1)

/-- Numerator of a normalized decimal string, scaled by `10 ^ decScale`. -/
def decNum (s : List Char) : Int :=
  let p := decSplit s
  (if p.1 then -1 else 1) *
    ((digitsVal p.2.1 * 10 ^ p.2.2.length + digitsVal p.2.2 : Nat) : Int)

/-- Number of fraction digits of a normalized decimal string. -/
def decScale (s : List Char) : Nat := (decSplit s).2.2.length

/-- Exact numeric equality of two normalized decimal strings. -/
def decValEq (a b : List Char) : Prop :=
  decNum a * 10 ^ decScale b = decNum b * 10 ^ decScale a

instance (a b : List Char) : Decidable (decValEq a b) := by
  unfold decValEq; infer_instance

/-! ## Step lemmas for the scan loop -/

theorem comma_not_digit : (','.isDigit) = false := by decide

theorem minus_not_digit : ('-'.isDigit) = false := by decide

theorem space_not_digit : (' '.isDigit) = false := by decide

theorem not_ws_of_digit {c : Char} (h : c.isDigit = true) : pyIsSpace c = false := by
  by_contra hc
  rw [Bool.not_eq_false] at hc
  simp only [pyIsSpace, Bool.or_eq_true, decide_eq_true_eq] at hc
  rcases hc with ((((h1 | h1) | h1) | h1) | h1) | h1 <;> subst h1 <;>
    exact absurd h (by decide)

theorem scan_nil (st : ScanSt) : scan [] st = st := rfl

theorem scan_digit {c : Char} (h : c.isDigit = true) (cs : List Char) (st : ScanSt) :
    scan (c :: cs) st = scan cs { st with stack := c :: st.stack } := by
  simp [scan, h]

theorem scan_comma (cs : List Char) (st : ScanSt) :
    scan (',' :: cs) st = scan cs { st with decimal := st.stack, stack := [] } := by
  simp [scan, comma_not_digit]

theorem scan_minus_le (cs : List Char) (st : ScanSt) (h : st.stack.length ≤ 3) :
    scan ('-' :: cs) st =
      { st with groups := st.stack :: st.groups, stack := [],
                sign := ['-'], parse_done := true } := by
  simp [scan, minus_not_digit, h]

theorem scan_minus_gt (cs : List Char) (st : ScanSt) (h : ¬ st.stack.length ≤ 3) :
    scan ('-' :: cs) st = scan cs st := by
  simp [scan, minus_not_digit, h]

theorem scan_space3 (cs : List Char) (st : ScanSt) (h : st.stack.length = 3) :
    scan (' ' :: cs) st =
      scan cs { st with groups := st.stack :: st.groups, stack := [],
                        has_space := true } := by
  simp [scan, space_not_digit, h]

theorem scan_space0 (cs : List Char) (st : ScanSt) (h : st.stack.length = 0) :
    scan (' ' :: cs) st = scan cs { st with has_space := true } := by
  simp [scan, space_not_digit, h]

theorem scan_space12 (cs : List Char) (st : ScanSt) (h1 : st.stack.length ≠ 3)
    (h2 : st.stack.length ≠ 0) (h3 : st.stack.length < 3) :
    scan (' ' :: cs) st =
      { st with groups := st.stack :: st.groups, stack := [],
                parse_done := true } := by
  simp [scan, space_not_digit, h1, h2, h3]

theorem scan_space_gt_hs (cs : List Char) (st : ScanSt) (h : 3 < st.stack.length)
    (hs : st.has_space = true) :
    scan (' ' :: cs) st = { st with parse_done := true } := by
  have h1 : st.stack.length ≠ 3 := by omega
  have h2 : st.stack.length ≠ 0 := by omega
  have h3 : ¬ st.stack.length < 3 := by omega
  simp [scan, space_not_digit, h1, h2, h3, hs]

theorem scan_space_gt_nohs (cs : List Char) (st : ScanSt) (h : 3 < st.stack.length)
    (hs : st.has_space = false) :
    scan (' ' :: cs) st =
      { st with groups := st.stack :: st.groups, stack := [],
                parse_done := true } := by
  have h1 : st.stack.length ≠ 3 := by omega
  have h2 : st.stack.length ≠ 0 := by omega
  have h3 : ¬ st.stack.length < 3 := by omega
  simp [scan, space_not_digit, h1, h2, h3, hs]

theorem scan_other {c : Char} (h1 : c.isDigit = false) (h2 : c ≠ ',') (h3 : c ≠ '-')
    (h4 : c ≠ ' ') (cs : List Char) (st : ScanSt) : scan (c :: cs) st = st := by
  simp [scan, h1, h2, h3, h4]

/-- Reading a block of digits (rightmost first) pushes them all. -/
theorem scan_digits (ds : List Char) (hd : ∀ c ∈ ds, c.isDigit = true)
    (cs : List Char) (st : ScanSt) :
    scan (ds.reverse ++ cs) st = scan cs { st with stack := ds ++ st.stack } := by
  induction ds generalizing cs with
  | nil => simp
  | cons a t ih =>
    rw [List.reverse_cons, List.append_assoc]
    rw [ih (fun c hc => hd c (List.mem_cons_of_mem a hc))]
    rw [List.singleton_append, scan_digit (hd a (List.mem_cons_self a t))]
    rfl

/-! ## `pyJoin` and strip lemmas -/

theorem pyJoin_nil_sep (gs : List (List Char)) : pyJoin [] gs = gs.flatten := by
  induction gs with
  | nil => rfl
  | cons g t ih =>
    cases t with
    | nil => simp [pyJoin]
    | cons h r => simp [pyJoin] at ih ⊢; simp [ih]

theorem pyJoin_sp_cons (g : List Char) (gs : List (List Char)) :
    pyJoin [' '] (g :: gs) = g ++ (gs.map (fun h => ' ' :: h)).flatten := by
  induction gs generalizing g with
  | nil => simp [pyJoin]
  | cons h r ih => simp only [pyJoin, ih h, List.map_cons, List.flatten_cons]; simp

/-- Reading a run of complete 3-digit space-separated groups flushes
each of them as a confirmed group. -/
theorem scan_groups3 (gs : List (List Char))
    (h3 : ∀ g ∈ gs, g.length = 3 ∧ ∀ c ∈ g, c.isDigit = true)
    (cs : List Char) (st : ScanSt) (hst : st.stack = []) :
    scan ((gs.map (fun g => ' ' :: g)).flatten.reverse ++ cs) st =
      scan cs { st with groups := gs ++ st.groups, stack := [],
                        has_space := if gs = [] then st.has_space else true } := by
  induction gs generalizing cs with
  | nil =>
    obtain ⟨s1, s2, s3, s4, s5, s6⟩ := st
    simp only at hst
    subst hst
    simp
  | cons g t ih =>
    have hg := h3 g (List.mem_cons_self g t)
    rw [List.map_cons, List.flatten_cons, List.reverse_append, List.append_assoc]
    rw [ih (fun x hx => h3 x (List.mem_cons_of_mem g hx))]
    rw [List.reverse_cons, List.append_assoc, List.singleton_append]
    rw [scan_digits g hg.2]
    rw [scan_space3 _ _ (by simp [hg.1])]
    simp

/-- Left strip distributes over an append whose right part starts with a
non-whitespace character. -/
theorem pyStripL_append (p X : List Char) (c : Char) (t : List Char)
    (hX : X = c :: t) (hc : pyIsSpace c = false) :
    (p ++ X).dropWhile pyIsSpace = p.dropWhile pyIsSpace ++ X := by
  subst hX
  rw [List.dropWhile_append]
  by_cases h : (p.dropWhile pyIsSpace).isEmpty = true
  · rw [if_pos h, List.dropWhile_cons, hc]
    simp only [List.isEmpty_iff] at h
    rw [h]
    simp
  · rw [if_neg h]

/-- Full strip of an append whose right part begins and ends with
non-whitespace characters: only the left part is left-stripped. -/
theorem pyStrip_concat (p X : List Char) (c : Char) (t : List Char) (Y : List Char)
    (e : Char) (hX1 : X = c :: t) (hc : pyIsSpace c = false)
    (hX2 : X = Y ++ [e]) (he : pyIsSpace e = false) :
    pyStrip (p ++ X) = pyStripL p ++ X := by
  unfold pyStrip pyStripL
  rw [pyStripL_append p X c t hX1 hc]
  have hrev : (p.dropWhile pyIsSpace ++ X).reverse =
      e :: (Y.reverse ++ (p.dropWhile pyIsSpace).reverse) := by
    rw [hX2]
    simp
  rw [hrev, List.dropWhile_cons, he]
  simp only [Bool.false_eq_true, if_neg (by simp : ¬False)]
  rw [List.reverse_cons]
  simp [hX2]

/-! ## `rfind` specification -/

theorem occursAt_iff (s pat : List Char) (j : Nat) :
    occursAt s pat j ↔ j ≤ s.length ∧ matchesAt s pat j = true := by
  unfold occursAt matchesAt
  rw [decide_eq_true_eq]
  constructor
  · intro ⟨h1, h2⟩
    exact ⟨by omega, h2⟩
  · intro ⟨h1, h2⟩
    refine ⟨?_, h2⟩
    have := congrArg List.length h2
    simp only [List.length_take, List.length_drop] at this
    omega

theorem mem_of_getLast?_eq {l : List Nat} {m : Nat} (h : l.getLast? = some m) : m ∈ l := by
  induction l with
  | nil => simp at h
  | cons a t ih =>
    cases t with
    | nil =>
      simp only [List.getLast?_singleton, Option.some.injEq] at h
      simp [h]
    | cons b r =>
      rw [List.getLast?_cons_cons] at h
      exact List.mem_cons_of_mem a (ih h)

theorem sorted_getLast_ub {l : List Nat} (hs : l.Pairwise (· < ·)) {m : Nat}
    (h : l.getLast? = some m) : ∀ j ∈ l, j ≤ m := by
  induction l with
  | nil => simp
  | cons a t ih =>
    cases t with
    | nil =>
      simp only [List.getLast?_singleton, Option.some.injEq] at h
      intro j hj
      simp only [List.mem_singleton] at hj
      omega
    | cons b r =>
      rw [List.getLast?_cons_cons] at h
      have hm : m ∈ b :: r := mem_of_getLast?_eq h
      intro j hj
      rcases List.mem_cons.1 hj with rfl | hj2
      · have := (List.pairwise_cons.1 hs).1 m hm
        omega
      · exact ih (List.pairwise_cons.1 hs).2 h j hj2

theorem getLast?_of_max {l : List Nat} (hs : l.Pairwise (· < ·)) {m : Nat}
    (hm : m ∈ l) (hub : ∀ j ∈ l, j ≤ m) : l.getLast? = some m := by
  induction l with
  | nil => simp at hm
  | cons a t ih =>
    cases t with
    | nil =>
      simp only [List.mem_singleton] at hm
      simp [hm]
    | cons b r =>
      rw [List.getLast?_cons_cons]
      rcases List.mem_cons.1 hm with rfl | hm2
      · have hab := (List.pairwise_cons.1 hs).1 b (List.mem_cons_self b r)
        have := hub b (List.mem_cons_of_mem m (List.mem_cons_self b r))
        omega
      · exact ih (List.pairwise_cons.1 hs).2 hm2
          (fun j hj => hub j (List.mem_cons_of_mem a hj))

theorem rfind_ge_of_occurs {s pat : List Char} {j : Nat} (h : occursAt s pat j) :
    (j : Int) ≤ rfind s pat := by
  have hj := (occursAt_iff s pat j).1 h
  have hmem : j ∈ (List.range (s.length + 1)).filter (fun i => matchesAt s pat i) :=
    List.mem_filter.2 ⟨List.mem_range.2 (by omega), hj.2⟩
  cases hL : ((List.range (s.length + 1)).filter (fun i => matchesAt s pat i)).getLast? with
  | none =>
    rw [List.getLast?_eq_none_iff] at hL
    rw [hL] at hmem
    simp at hmem
  | some m =>
    have hr : rfind s pat = (m : Int) := by unfold rfind; rw [hL]
    have hub := sorted_getLast_ub
      (List.Pairwise.filter _ (List.pairwise_lt_range (s.length + 1))) hL
    rw [hr]
    exact_mod_cast hub j hmem

theorem rfind_occurs {s pat : List Char} (h : 0 ≤ rfind s pat) :
    occursAt s pat (rfind s pat).toNat := by
  cases hL : ((List.range (s.length + 1)).filter (fun i => matchesAt s pat i)).getLast? with
  | none =>
    have hr : rfind s pat = -1 := by unfold rfind; rw [hL]
    rw [hr] at h
    omega
  | some m =>
    have hr : rfind s pat = (m : Int) := by unfold rfind; rw [hL]
    have hmem := List.mem_filter.1 (mem_of_getLast?_eq hL)
    rw [hr, Int.toNat_natCast]
    exact (occursAt_iff s pat m).2
      ⟨by have := List.mem_range.1 hmem.1; omega, by simpa using hmem.2⟩

theorem rfind_neg_of_none {s pat : List Char} (h : ∀ j, ¬ occursAt s pat j) :
    rfind s pat = -1 := by
  unfold rfind
  cases hL : ((List.range (s.length + 1)).filter (fun i => matchesAt s pat i)).getLast? with
  | none => rfl
  | some m =>
    have hmem := List.mem_filter.1 (mem_of_getLast?_eq hL)
    exact absurd ((occursAt_iff s pat m).2
      ⟨by have := List.mem_range.1 hmem.1; omega, by simpa using hmem.2⟩) (h m)

theorem rfind_suffix (a pat : List Char) (h : pat ≠ []) :
    rfind (a ++ pat) pat = a.length := by
  have hpat : 0 < pat.length := List.length_pos_of_ne_nil h
  have hmA : matchesAt (a ++ pat) pat a.length = true := by
    unfold matchesAt
    rw [List.drop_left, List.take_length]
    simp
  have hmem : a.length ∈ (List.range ((a ++ pat).length + 1)).filter
      (fun i => matchesAt (a ++ pat) pat i) := by
    refine List.mem_filter.2 ⟨List.mem_range.2 ?_, hmA⟩
    rw [List.length_append]
    omega
  have hub : ∀ j ∈ (List.range ((a ++ pat).length + 1)).filter
      (fun i => matchesAt (a ++ pat) pat i), j ≤ a.length := by
    intro j hj
    have hj2 := List.mem_filter.1 hj
    by_contra hgt
    have hmj : ((a ++ pat).drop j).take pat.length = pat := by
      have := hj2.2
      unfold matchesAt at this
      simpa using this
    have := congrArg List.length hmj
    simp only [List.length_take, List.length_drop, List.length_append] at this
    omega
  unfold rfind
  rw [getLast?_of_max (List.Pairwise.filter _ (List.pairwise_lt_range _)) hmem hub]

/-! ## Scan invariants -/

theorem mem_of_mem_pyStrip {c : Char} {l : List Char} (h : c ∈ pyStrip l) : c ∈ l := by
  unfold pyStrip at h
  rw [List.mem_reverse] at h
  have h2 := (List.dropWhile_sublist pyIsSpace).subset h
  rw [List.mem_reverse] at h2
  exact (List.dropWhile_sublist pyIsSpace).subset h2

theorem scan_digit_inv (cs : List Char) (st : ScanSt)
    (h1 : ∀ c ∈ st.stack, c.isDigit = true)
    (h2 : ∀ g ∈ st.groups, ∀ c ∈ g, c.isDigit = true)
    (h3 : ∀ c ∈ st.decimal, c.isDigit = true)
    (h4 : st.sign = [] ∨ st.sign = ['-']) :
    (∀ c ∈ (scan cs st).stack, c.isDigit = true) ∧
    (∀ g ∈ (scan cs st).groups, ∀ c ∈ g, c.isDigit = true) ∧
    (∀ c ∈ (scan cs st).decimal, c.isDigit = true) ∧
    ((scan cs st).sign = [] ∨ (scan cs st).sign = ['-']) := by
  induction cs generalizing st with
  | nil => exact ⟨h1, h2, h3, h4⟩
  | cons c cs ih =>
    by_cases hd : c.isDigit = true
    · rw [scan_digit hd]
      refine ih _ ?_ h2 h3 h4
      intro x hx
      rcases List.mem_cons.1 hx with rfl | hx2
      · exact hd
      · exact h1 x hx2
    · rw [Bool.not_eq_true] at hd
      by_cases hc : c = ','
      · subst hc
        rw [scan_comma]
        exact ih _ (by simp) h2 h1 h4
      · by_cases hm : c = '-'
        · subst hm
          by_cases hl : st.stack.length ≤ 3
          · rw [scan_minus_le _ _ hl]
            refine ⟨by simp, ?_, h3, Or.inr rfl⟩
            intro g hg
            rcases List.mem_cons.1 hg with rfl | hg2
            · exact h1
            · exact h2 g hg2
          · rw [scan_minus_gt _ _ hl]
            exact ih _ h1 h2 h3 h4
        · by_cases hsp : c = ' '
          · subst hsp
            by_cases hl3 : st.stack.length = 3
            · rw [scan_space3 _ _ hl3]
              refine ih _ (by simp) ?_ h3 h4
              intro g hg
              rcases List.mem_cons.1 hg with rfl | hg2
              · exact h1
              · exact h2 g hg2
            · by_cases hl0 : st.stack.length = 0
              · rw [scan_space0 _ _ hl0]
                exact ih _ h1 h2 h3 h4
              · by_cases hlt : st.stack.length < 3
                · rw [scan_space12 _ _ hl3 hl0 hlt]
                  refine ⟨by simp, ?_, h3, h4⟩
                  intro g hg
                  rcases List.mem_cons.1 hg with rfl | hg2
                  · exact h1
                  · exact h2 g hg2
                · by_cases hhs : st.has_space = true
                  · rw [scan_space_gt_hs _ _ (by omega) hhs]
                    exact ⟨h1, h2, h3, h4⟩
                  · rw [Bool.not_eq_true] at hhs
                    rw [scan_space_gt_nohs _ _ (by omega) hhs]
                    refine ⟨by simp, ?_, h3, h4⟩
                    intro g hg
                    rcases List.mem_cons.1 hg with rfl | hg2
                    · exact h1
                    · exact h2 g hg2
          · rw [scan_other hd hc hm hsp]
            exact ⟨h1, h2, h3, h4⟩

theorem scan_decimal_no_comma (cs : List Char) (st : ScanSt) (h : ',' ∉ cs) :
    (scan cs st).decimal = st.decimal := by
  induction cs generalizing st with
  | nil => rfl
  | cons c cs ih =>
    have hc : c ≠ ',' := fun hx => h (hx ▸ List.mem_cons_self c cs)
    have hcs : ',' ∉ cs := fun hx => h (List.mem_cons_of_mem c hx)
    by_cases hd : c.isDigit = true
    · rw [scan_digit hd]; exact ih _ hcs
    · rw [Bool.not_eq_true] at hd
      by_cases hm : c = '-'
      · subst hm
        by_cases hl : st.stack.length ≤ 3
        · rw [scan_minus_le _ _ hl]
        · rw [scan_minus_gt _ _ hl]; exact ih _ hcs
      · by_cases hsp : c = ' '
        · subst hsp
          by_cases hl3 : st.stack.length = 3
          · rw [scan_space3 _ _ hl3]; exact ih _ hcs
          · by_cases hl0 : st.stack.length = 0
            · rw [scan_space0 _ _ hl0]; exact ih _ hcs
            · by_cases hlt : st.stack.length < 3
              · rw [scan_space12 _ _ hl3 hl0 hlt]
              · by_cases hhs : st.has_space = true
                · rw [scan_space_gt_hs _ _ (by omega) hhs]
                · rw [Bool.not_eq_true] at hhs
                  rw [scan_space_gt_nohs _ _ (by omega) hhs]
        · rw [scan_other hd hc hm hsp]

/-- Structure of the state the scan loop can end in, starting from a
state with only complete 3-digit confirmed groups: after the post-loop
flush, every group except the leftmost has exactly 3 digits, an empty
leftmost group can only come from a consumed minus sign, and a minus
sign is only consumed in front of a group of at most 3 digits. -/
theorem scan_shape (cs : List Char) (st : ScanSt)
    (hg : ∀ g ∈ st.groups, g.length = 3)
    (hsign : st.sign = [])
    (hpd : st.parse_done = false) :
    (∀ g ∈ (groupsAfter (scan cs st)).tail, g.length = 3) ∧
    (∀ h t, groupsAfter (scan cs st) = h :: t →
      (h = [] → (scan cs st).sign = ['-']) ∧
      ((scan cs st).sign = ['-'] → h.length ≤ 3)) ∧
    (groupsAfter (scan cs st) = [] → (scan cs st).sign = []) := by
  induction cs generalizing st with
  | nil =>
    rw [scan_nil]
    unfold groupsAfter
    by_cases hstk : st.stack = []
    · rw [if_neg (by simp [hstk])]
      refine ⟨?_, ?_, fun _ => hsign⟩
      · intro g hgmem
        exact hg g ((List.tail_sublist st.groups).subset hgmem)
      · intro h t hht
        constructor
        · intro hnil
          have : h ∈ st.groups := by rw [hht]; exact List.mem_cons_self h t
          have := hg h this
          rw [hnil] at this
          simp at this
        · intro hmi
          rw [hsign] at hmi
          simp at hmi
    · rw [if_pos ⟨hpd, hstk⟩]
      refine ⟨by simpa using hg, ?_, by simp⟩
      intro h t hht
      rw [List.cons.injEq] at hht
      constructor
      · intro hnil
        rw [← hht.1] at hnil
        exact absurd hnil hstk
      · intro hmi
        rw [hsign] at hmi
        simp at hmi
  | cons c cs ih =>
    by_cases hd : c.isDigit = true
    · rw [scan_digit hd]
      exact ih _ hg hsign hpd
    · rw [Bool.not_eq_true] at hd
      by_cases hc : c = ','
      · subst hc
        rw [scan_comma]
        exact ih _ hg hsign hpd
      · by_cases hm : c = '-'
        · subst hm
          by_cases hl : st.stack.length ≤ 3
          · rw [scan_minus_le _ _ hl]
            unfold groupsAfter
            rw [if_neg (by simp)]
            refine ⟨by simpa using hg, ?_, by simp⟩
            intro h t hht
            rw [List.cons.injEq] at hht
            exact ⟨fun _ => rfl, fun _ => hht.1 ▸ hl⟩
          · rw [scan_minus_gt _ _ hl]
            exact ih _ hg hsign hpd
        · by_cases hsp : c = ' '
          · subst hsp
            by_cases hl3 : st.stack.length = 3
            · rw [scan_space3 _ _ hl3]
              refine ih _ ?_ hsign hpd
              intro g hgmem
              rcases List.mem_cons.1 hgmem with rfl | hg2
              · exact hl3
              · exact hg g hg2
            · by_cases hl0 : st.stack.length = 0
              · rw [scan_space0 _ _ hl0]
                exact ih _ hg hsign hpd
              · by_cases hlt : st.stack.length < 3
                · rw [scan_space12 _ _ hl3 hl0 hlt]
                  unfold groupsAfter
                  rw [if_neg (by simp)]
                  refine ⟨by simpa using hg, ?_, by simp⟩
                  intro h t hht
                  rw [List.cons.injEq] at hht
                  constructor
                  · intro hnil
                    rw [← hht.1] at hnil
                    rw [hnil] at hl0
                    simp at hl0
                  · intro hmi
                    rw [hsign] at hmi
                    simp at hmi
                · by_cases hhs : st.has_space = true
                  · rw [scan_space_gt_hs _ _ (by omega) hhs]
                    unfold groupsAfter
                    rw [if_neg (by simp)]
                    refine ⟨?_, ?_, fun _ => hsign⟩
                    · intro g hgmem
                      exact hg g ((List.tail_sublist st.groups).subset hgmem)
                    · intro h t hht
                      constructor
                      · intro hnil
                        have : h ∈ st.groups := by rw [hht]; exact List.mem_cons_self h t
                        have := hg h this
                        rw [hnil] at this
                        simp at this
                      · intro hmi
                        rw [hsign] at hmi
                        simp at hmi
                  · rw [Bool.not_eq_true] at hhs
                    rw [scan_space_gt_nohs _ _ (by omega) hhs]
                    unfold groupsAfter
                    rw [if_neg (by simp)]
                    refine ⟨by simpa using hg, ?_, by simp⟩
                    intro h t hht
                    rw [List.cons.injEq] at hht
                    constructor
                    · intro hnil
                      rw [← hht.1] at hnil
                      rw [hnil] at hl0
                      simp at hl0
                    · intro hmi
                      rw [hsign] at hmi
                      simp at hmi
          · rw [scan_other hd hc hm hsp]
            unfold groupsAfter
            by_cases hstk : st.stack = []
            · rw [if_neg (by simp [hstk])]
              refine ⟨?_, ?_, fun _ => hsign⟩
              · intro g hgmem
                exact hg g ((List.tail_sublist st.groups).subset hgmem)
              · intro h t hht
                constructor
                · intro hnil
                  have : h ∈ st.groups := by rw [hht]; exact List.mem_cons_self h t
                  have := hg h this
                  rw [hnil] at this
                  simp at this
                · intro hmi
                  rw [hsign] at hmi
                  simp at hmi
            · rw [if_pos ⟨hpd, hstk⟩]
              refine ⟨by simpa using hg, ?_, by simp⟩
              intro h t hht
              rw [List.cons.injEq] at hht
              constructor
              · intro hnil
                rw [← hht.1] at hnil
                exact absurd hnil hstk
              · intro hmi
                rw [hsign] at hmi
                simp at hmi

theorem mem_groupsAfter {st : ScanSt} {g : List Char} (h : g ∈ groupsAfter st) :
    g = st.stack ∨ g ∈ st.groups := by
  unfold groupsAfter at h
  split at h
  · rcases List.mem_cons.1 h with rfl | h2
    · exact Or.inl rfl
    · exact Or.inr h2
  · exact Or.inr h

/-- On input with no digits the scan keeps an empty stack and empty
decimal, and at most consumes one minus sign (flushing an empty group). -/
theorem scan_no_digits (cs : List Char) (st : ScanSt)
    (hnd : ∀ c ∈ cs, c.isDigit = false)
    (hst : st.stack = []) (hdec : st.decimal = []) (hgr : st.groups = [])
    (hsg : st.sign = []) :
    (scan cs st).stack = [] ∧ (scan cs st).decimal = [] ∧
    ((scan cs st).groups = [] ∧ (scan cs st).sign = [] ∨
     (scan cs st).groups = [[]] ∧ (scan cs st).sign = ['-']) := by
  induction cs generalizing st with
  | nil => exact ⟨hst, hdec, Or.inl ⟨hgr, hsg⟩⟩
  | cons c cs ih =>
    have hd : c.isDigit = false := hnd c (List.mem_cons_self c cs)
    have hcs : ∀ x ∈ cs, x.isDigit = false := fun x hx => hnd x (List.mem_cons_of_mem c hx)
    by_cases hc : c = ','
    · subst hc
      rw [scan_comma]
      exact ih _ hcs (by simp) (by simpa using hst) hgr hsg
    · by_cases hm : c = '-'
      · subst hm
        rw [scan_minus_le _ _ (by rw [hst]; simp)]
        exact ⟨by simp, hdec, Or.inr ⟨by simp [hst, hgr], rfl⟩⟩
      · by_cases hsp : c = ' '
        · subst hsp
          rw [scan_space0 _ _ (by rw [hst]; simp)]
          exact ih _ hcs hst hdec hgr hsg
        · rw [scan_other hd hc hm hsp]
          exact ⟨hst, hdec, Or.inl ⟨hgr, hsg⟩⟩

/-- C5: for every input, the normalized value returned by `parse_amount`
is an optional leading minus, a (possibly empty) run of digits, exactly
one dot, and a (possibly empty) run of digits; when the line has no
comma the decimal fragment is empty, so the value ends in a bare dot. -/
theorem claim5_normalized_shape (line : List Char) :
    ∃ sg ds fs : List Char,
      (sg = [] ∨ sg = ['-']) ∧
      (∀ c ∈ ds, c.isDigit = true) ∧
      (∀ c ∈ fs, c.isDigit = true) ∧
      (parse_amount line).1 = sg ++ ds ++ '.' :: fs ∧
      (',' ∉ line → fs = []) := by
  have hinv := scan_digit_inv (pyStrip line).reverse initSt
    (by simp [initSt]) (by simp [initSt]) (by simp [initSt]) (Or.inl rfl)
  refine ⟨(scanLine line).sign, pyJoin [] (groupsAfter (scanLine line)),
    (scanLine line).decimal, hinv.2.2.2, ?_, hinv.2.2.1, ?_, ?_⟩
  · intro c hc
    rw [pyJoin_nil_sep, List.mem_flatten] at hc
    obtain ⟨g, hg, hcg⟩ := hc
    rcases mem_groupsAfter hg with rfl | hg2
    · exact hinv.1 c hcg
    · exact hinv.2.1 g hg2 c hcg
  · simp [parse_amount, scanLine, List.append_assoc]
  · intro hnc
    have : (',' : Char) ∉ (pyStrip line).reverse := by
      intro hmem
      exact hnc (mem_of_mem_pyStrip (List.mem_reverse.1 hmem))
    exact scan_decimal_no_comma _ initSt this

/-- C5 witness: the shape at the concrete line `"Text 100"`. -/
theorem claim5_normalized_shape_witness :
    ∃ sg ds fs : List Char,
      (sg = [] ∨ sg = ['-']) ∧
      (∀ c ∈ ds, c.isDigit = true) ∧
      (∀ c ∈ fs, c.isDigit = true) ∧
      (parse_amount "Text 100".data).1 = sg ++ ds ++ '.' :: fs ∧
      ((',' : Char) ∉ "Text 100".data → fs = []) :=
  claim5_normalized_shape "Text 100".data

/-- C7: `parse_amount` is total on digit-free lines and returns the
degenerate amount with empty integer digits and empty decimal part
(the normalized value is `"."`, or `"-."` when a bare minus sign was
consumed as the sign). -/
theorem claim7_no_digits (line : List Char) (h : ∀ c ∈ line, c.isDigit = false) :
    (parse_amount line).1 = ['.'] ∨ (parse_amount line).1 = ['-', '.'] := by
  have hnd : ∀ c ∈ (pyStrip line).reverse, c.isDigit = false := fun c hc =>
    h c (mem_of_mem_pyStrip (List.mem_reverse.1 hc))
  have K := scan_no_digits (pyStrip line).reverse initSt hnd rfl rfl rfl rfl
  have hga : groupsAfter (scanLine line) = (scanLine line).groups := by
    unfold groupsAfter
    rw [if_neg (by simp [scanLine, K.1])]
  rcases K.2.2 with ⟨hgr, hsg⟩ | ⟨hgr, hsg⟩
  · left
    simp [parse_amount, hga, scanLine] at *
    simp [hgr, hsg, K.2.1, pyJoin]
  · right
    simp [parse_amount, hga, scanLine] at *
    simp [hgr, hsg, K.2.1, pyJoin]

/-- C7 witness: a concrete digit-free line. -/
theorem claim7_no_digits_witness :
    (parse_amount "hello -".data).1 = ['.'] ∨
    (parse_amount "hello -".data).1 = ['-', '.'] :=
  claim7_no_digits "hello -".data (by decide)

/-- C10: the returned offset is Python `rfind` of the reconstructed
literal (sign, confirmed groups joined by single spaces, comma and
decimal fragment when non-empty): when non-negative it is the rightmost
index at which that literal occurs in the original line; it is `-1`
exactly when the literal occurs nowhere (for example when the original
number separated groups with more than one space); and in the `-1` case
the caller's Python slice `line[:offset]` drops the line's last
character. -/
theorem claim10_offset_rfind (line : List Char) :
    ((∃ j, occursAt line (amountLiteral line) j) → 0 ≤ (parse_amount line).2) ∧
    (0 ≤ (parse_amount line).2 →
      occursAt line (amountLiteral line) (parse_amount line).2.toNat ∧
      ∀ j, occursAt line (amountLiteral line) j → (j : Int) ≤ (parse_amount line).2) ∧
    ((∀ j, j ≤ line.length → ¬ occursAt line (amountLiteral line) j) →
      (parse_amount line).2 = -1) ∧
    ((parse_amount line).2 = -1 → pySliceTo line (parse_amount line).2 = line.dropLast) := by
  have hsnd : (parse_amount line).2 = rfind line (amountLiteral line) := rfl
  refine ⟨?_, ?_, ?_, ?_⟩
  · intro ⟨j, hj⟩
    have := rfind_ge_of_occurs hj
    rw [hsnd]
    omega
  · intro h0
    rw [hsnd] at h0 ⊢
    exact ⟨rfind_occurs h0, fun j hj => rfind_ge_of_occurs hj⟩
  · intro hb
    rw [hsnd]
    refine rfind_neg_of_none (fun j hj => ?_)
    exact hb j (by have := hj.1; omega) hj
  · intro hneg
    rw [hneg]
    unfold pySliceTo
    rw [if_neg (by omega)]
    rw [List.dropLast_eq_take]
    rfl

/-- C10 witness: a number whose groups are separated by two spaces, so
the reconstructed literal occurs nowhere, the offset is `-1`, and the
head slice drops the last character. -/
theorem claim10_offset_rfind_witness :
    (parse_amount "TX 12  345,67".data).2 = -1 ∧
    pySliceTo "TX 12  345,67".data (parse_amount "TX 12  345,67".data).2 =
      "TX 12  345,67".data.dropLast := by
  have h := claim10_offset_rfind "TX 12  345,67".data
  have h2 := h.2.2.1 (by decide)
  exact ⟨h2, h.2.2.2 h2⟩

/-- C1 counterexample: `"BLA 1 23 456,78"` matches the claimed form
(leading text, then digit groups of at most 3 digits joined by single spaces,
then a comma and digits), whose exact value is `123456.78`; but
`parse_amount` returns `"23456.78"` with offset `6`, and the slice from
that offset is `"23 456,78"`, not the original `"1 23 456,78"`. -/
theorem claim1_counterexample :
    parse_amount "BLA 1 23 456,78".data = ("23456.78".data, 6) ∧
    ¬ decValEq "23456.78".data "123456.78".data ∧
    "BLA 1 23 456,78".data.drop 6 ≠ "1 23 456,78".data := by
  exact ⟨by decide, by decide, by decide⟩

/-- C2 counterexample: in `"9-1234,5"` the minus is reached with the
4-digit accumulator `"1234"`; the claim says scanning terminates at the
minus after flushing that group (which would yield `"1234.5"`), but the
code skips the minus and keeps accumulating: the `'9'` on its far side
joins the same run and the result is `"91234.5"` (offset `-1` because
the literal `"91234,5"` occurs nowhere). -/
theorem claim2_counterexample :
    parse_amount "9-1234,5".data = ("91234.5".data, -1) ∧
    "91234.5".data ≠ "1234.5".data := by
  exact ⟨by decide, by decide⟩

/-- C3 counterexample: in `"a 1234 567,89"` the scan reaches the space
in front of `"1234"` with more than 3 accumulated digits after the
group `"567"` was already confirmed; the claim says the accumulator is
still flushed as the leftmost group (value `"1234567.89"`), but the
code discards it: the result is `"567.89"`. -/
theorem claim3_counterexample :
    parse_amount "a 1234 567,89".data = ("567.89".data, 7) ∧
    "567.89".data ≠ "1234567.89".data := by
  exact ⟨by decide, by decide⟩

/-- C4 counterexample: in `"1,2,3"` the first comma encountered by the
backward scan captures `"3"`, but the later (leftward) comma replaces
the fragment with `"2"`: the result is `"1.2"`, not `"1.3"` as the
claim's first-comma-wins rule would give. -/
theorem claim4_counterexample :
    parse_amount "1,2,3".data = ("1.2".data, 0) ∧
    "1.2".data ≠ "1.3".data := by
  exact ⟨by decide, by decide⟩

/-- C6 counterexample: on `"x, 123,9"` extraction returns value `"123."`
with offset `3`, but re-extracting from the slice `line[3:] = "123,9"`
returns `"123.9"`, a different normalized value. -/
theorem claim6_counterexample :
    parse_amount "x, 123,9".data = ("123.".data, 3) ∧
    pySliceFrom "x, 123,9".data (parse_amount "x, 123,9".data).2 = "123,9".data ∧
    (parse_amount (pySliceFrom "x, 123,9".data (parse_amount "x, 123,9".data).2)).1 =
      "123.9".data ∧
    "123.9".data ≠ "123.".data := by
  exact ⟨by decide, by decide, by decide, by decide⟩

/-! ## Helpers for computing `parse_amount` on structured lines -/

theorem parse_amount_val (line : List Char) :
    (parse_amount line).1 =
      (scanLine line).sign ++ pyJoin [] (groupsAfter (scanLine line)) ++
        '.' :: (scanLine line).decimal := rfl

theorem parse_amount_idx (line : List Char) :
    (parse_amount line).2 = rfind line (amountLiteral line) := rfl

theorem scan_digits_end (ds : List Char) (hd : ∀ c ∈ ds, c.isDigit = true) (st : ScanSt) :
    scan ds.reverse st = { st with stack := ds ++ st.stack } := by
  have h := scan_digits ds hd [] st
  rw [List.append_nil] at h
  rw [h, scan_nil]

theorem dropWhile_eq_self_of_all {s : List Char} (h : ∀ c ∈ s, pyIsSpace c = false) :
    s.dropWhile pyIsSpace = s := by
  cases s with
  | nil => rfl
  | cons c t =>
    rw [List.dropWhile_cons, if_neg (by simp [h c (List.mem_cons_self c t)])]

theorem pyStrip_eq_self {s : List Char} (h : ∀ c ∈ s, pyIsSpace c = false) :
    pyStrip s = s := by
  unfold pyStrip
  rw [dropWhile_eq_self_of_all h,
    dropWhile_eq_self_of_all (fun c hc => h c (List.mem_reverse.1 hc)),
    List.reverse_reverse]

/-- C4 amended: every comma encountered by the backward scan overwrites
the decimal fragment with the accumulator contents, so the last comma
consumed (the leftmost one reached before scanning stops) determines
the fragment: on `digits "," d1 "," d2` the fragment is `d1`. -/
theorem claim4_amended (g d1 d2 : List Char)
    (hg : ∀ c ∈ g, c.isDigit = true)
    (hd1 : ∀ c ∈ d1, c.isDigit = true)
    (hd2 : ∀ c ∈ d2, c.isDigit = true) :
    (parse_amount (g ++ ',' :: d1 ++ ',' :: d2)).1 = g ++ '.' :: d1 := by
  have hcomma : pyIsSpace ',' = false := by decide
  have hstrip : pyStrip (g ++ ',' :: d1 ++ ',' :: d2) = g ++ ',' :: d1 ++ ',' :: d2 := by
    refine pyStrip_eq_self ?_
    rw [List.forall_mem_append, List.forall_mem_append, List.forall_mem_cons,
      List.forall_mem_cons]
    exact ⟨⟨fun c hc => not_ws_of_digit (hg c hc), hcomma,
      fun c hc => not_ws_of_digit (hd1 c hc)⟩,
      hcomma, fun c hc => not_ws_of_digit (hd2 c hc)⟩
  rw [parse_amount_val]
  unfold scanLine
  rw [hstrip]
  rw [show (g ++ ',' :: d1 ++ ',' :: d2).reverse =
      d2.reverse ++ ',' :: (d1.reverse ++ ',' :: g.reverse) from by simp]
  rw [scan_digits d2 hd2, scan_comma, scan_digits d1 hd1, scan_comma,
    scan_digits_end g hg]
  by_cases hgnil : g = []
  · subst hgnil
    simp [groupsAfter, initSt, pyJoin]
  · simp [groupsAfter, initSt, pyJoin, hgnil]

/-- C4 amended witness: `"1,2,3"` keeps the fragment from the last
comma consumed. -/
theorem claim4_amended_witness :
    (parse_amount ("1".data ++ ',' :: "2".data ++ ',' :: "3".data)).1 =
      "1".data ++ '.' :: "2".data :=
  claim4_amended "1".data "2".data "3".data (by decide) (by decide) (by decide)

theorem mem_of_head? {l : List Char} {c : Char} (h : l.head? = some c) : c ∈ l := by
  cases l with
  | nil => simp at h
  | cons a t =>
    simp only [List.head?_cons, Option.some.injEq] at h
    rw [← h]
    exact List.mem_cons_self a t

/-- Strip of `p ++ X` when `X` begins and ends with non-whitespace:
only the left part is left-stripped. -/
theorem pyStrip_append_form (p X : List Char) (hne : X ≠ [])
    (hhead : ∀ c, X.head? = some c → pyIsSpace c = false)
    (hlast : ∀ c, X.reverse.head? = some c → pyIsSpace c = false) :
    pyStrip (p ++ X) = pyStripL p ++ X := by
  obtain ⟨c, t, rfl⟩ := List.exists_cons_of_ne_nil hne
  unfold pyStrip pyStripL
  rw [pyStripL_append p _ c t rfl (hhead c rfl)]
  rw [List.reverse_append]
  have hne2 : (c :: t).reverse ≠ [] := by simp
  obtain ⟨e, r, her⟩ := List.exists_cons_of_ne_nil hne2
  rw [her, List.cons_append, List.dropWhile_cons,
    if_neg (by simp [hlast e (by rw [her]; rfl)])]
  rw [← List.cons_append, ← her]
  simp

theorem revhead_no_ws_comma (d A : List Char) (hd : ∀ c ∈ d, c.isDigit = true) :
    ∀ c, ((A ++ ',' :: d).reverse).head? = some c → pyIsSpace c = false := by
  intro c hc
  rw [List.reverse_append, List.reverse_cons] at hc
  rcases hrd : d.reverse with _ | ⟨x, xs⟩
  · rw [hrd] at hc
    simp only [List.nil_append, List.singleton_append, List.head?_cons,
      Option.some.injEq] at hc
    rw [← hc]
    decide
  · rw [hrd] at hc
    simp only [List.cons_append, List.append_assoc, List.head?_cons,
      Option.some.injEq] at hc
    rw [← hc]
    refine not_ws_of_digit (hd x ?_)
    rw [← List.mem_reverse, hrd]
    exact List.mem_cons_self x xs

theorem revhead_no_ws_digits (g A : List Char) (hg : ∀ c ∈ g, c.isDigit = true)
    (hne : g ≠ []) :
    ∀ c, ((A ++ g).reverse).head? = some c → pyIsSpace c = false := by
  intro c hc
  rw [List.reverse_append] at hc
  obtain ⟨x, xs, hx⟩ := List.exists_cons_of_ne_nil (show g.reverse ≠ [] by simp [hne])
  rw [hx] at hc
  simp only [List.cons_append, List.head?_cons, Option.some.injEq] at hc
  rw [← hc]
  refine not_ws_of_digit (hg x ?_)
  rw [← List.mem_reverse, hx]
  exact List.mem_cons_self x xs

theorem space_not_minus : (' ' : Char) ≠ '-' := by decide

/-- C2 amended: a minus sign reached with at most 3 accumulated digits
flushes the accumulator as the leftmost group, makes the sign negative
and terminates the scan (first conjunct, as the claim states); but a
minus sign reached with more than 3 accumulated digits is not consumed
as the sign and does **not** terminate the scan — it is skipped with the
accumulator intact, so the result is the same as if the minus were
absent from the line (second conjunct, where the claim said scanning
terminates at that minus). -/
theorem claim2_amended :
    (∀ p g d : List Char, 1 ≤ g.length → g.length ≤ 3 →
      (∀ c ∈ g, c.isDigit = true) → (∀ c ∈ d, c.isDigit = true) →
      (parse_amount (p ++ ('-' :: g ++ ',' :: d))).1 = '-' :: g ++ '.' :: d) ∧
    (∀ p g : List Char, 4 ≤ g.length → (∀ c ∈ g, c.isDigit = true) →
      (parse_amount (p ++ ('-' :: g))).1 = (parse_amount (p ++ g)).1) := by
  constructor
  · intro p g d h1 h3 hg hd
    have hstrip := pyStrip_append_form p ('-' :: g ++ ',' :: d) (by simp)
      (by intro c hc
          simp only [List.cons_append, List.head?_cons, Option.some.injEq] at hc
          rw [← hc]; decide)
      (revhead_no_ws_comma d ('-' :: g) hd)
    rw [parse_amount_val]
    unfold scanLine
    rw [hstrip]
    rw [show (pyStripL p ++ ('-' :: g ++ ',' :: d)).reverse =
        d.reverse ++ ',' :: (g.reverse ++ '-' :: (pyStripL p).reverse) from by simp]
    rw [scan_digits d hd, scan_comma, scan_digits g hg]
    rw [scan_minus_le _ _ (by simpa using h3)]
    simp [groupsAfter, initSt, pyJoin]
  · intro p g h4 hg
    have hne : g ≠ [] := by
      intro h
      rw [h] at h4
      simp at h4
    have hs1 := pyStrip_append_form p ('-' :: g) (by simp)
      (by intro c hc
          simp only [List.head?_cons, Option.some.injEq] at hc
          rw [← hc]; decide)
      (revhead_no_ws_digits g ['-'] hg hne)
    have hs2 := pyStrip_append_form p g hne
      (fun c hc => not_ws_of_digit (hg c (mem_of_head? hc)))
      (revhead_no_ws_digits g [] hg hne)
    rw [parse_amount_val, parse_amount_val]
    unfold scanLine
    rw [hs1, hs2]
    rw [show (pyStripL p ++ ('-' :: g)).reverse =
        g.reverse ++ '-' :: (pyStripL p).reverse from by simp]
    rw [show (pyStripL p ++ g).reverse = g.reverse ++ (pyStripL p).reverse from by simp]
    rw [scan_digits g hg, scan_digits g hg]
    rw [scan_minus_gt _ _ (by simp; omega)]

/-- C2 amended witness: both branches at concrete inputs. -/
theorem claim2_amended_witness :
    (parse_amount ("Another text ".data ++ ('-' :: "67".data ++ ',' :: "89".data))).1 =
      '-' :: "67".data ++ '.' :: "89".data ∧
    (parse_amount ("9".data ++ ('-' :: "1234".data))).1 =
      (parse_amount ("9".data ++ "1234".data)).1 := by
  constructor
  · exact claim2_amended.1 "Another text ".data "67".data "89".data
      (by decide) (by decide) (by decide) (by decide)
  · exact claim2_amended.2 "9".data "1234".data (by decide) (by decide)

/-- C3 amended: when the scan reaches a space with more than 3
accumulated digits after space-grouping was already observed, scanning
terminates and the accumulator is **discarded** (the termination sets
`parse_done`, so the post-loop flush does not run): only the previously
confirmed groups form the integer part, contrary to the claim's
flush-anyway reading. -/
theorem claim3_amended (p' : List Char) (b : Char) (a g d : List Char)
    (hb : pyIsSpace b = false)
    (ha4 : 4 ≤ a.length) (ha : ∀ c ∈ a, c.isDigit = true)
    (hg3 : g.length = 3) (hg : ∀ c ∈ g, c.isDigit = true)
    (hd : ∀ c ∈ d, c.isDigit = true) :
    (parse_amount (p' ++ (b :: ' ' :: (a ++ ' ' :: g ++ ',' :: d)))).1 = g ++ '.' :: d := by
  have hstrip := pyStrip_append_form p' (b :: ' ' :: (a ++ ' ' :: g ++ ',' :: d)) (by simp)
    (by intro c hc
        simp only [List.head?_cons, Option.some.injEq] at hc
        rw [← hc]; exact hb)
    (revhead_no_ws_comma d (b :: ' ' :: (a ++ ' ' :: g)) hd)
  rw [parse_amount_val]
  unfold scanLine
  rw [hstrip]
  rw [show (pyStripL p' ++ (b :: ' ' :: (a ++ ' ' :: g ++ ',' :: d))).reverse =
      d.reverse ++ ',' :: (g.reverse ++ ' ' :: (a.reverse ++ ' ' ::
        (b :: (pyStripL p').reverse))) from by simp]
  rw [scan_digits d hd, scan_comma, scan_digits g hg]
  rw [scan_space3 _ _ (by simpa using hg3)]
  rw [scan_digits a ha]
  rw [scan_space_gt_hs _ _ (by simp; omega) rfl]
  simp [groupsAfter, initSt, pyJoin]

/-- C3 amended witness: `"a 1234 567,89"` discards the accumulator
`"1234"` and keeps only the confirmed group. -/
theorem claim3_amended_witness :
    (parse_amount ("".data ++ ('a' :: ' ' :: ("1234".data ++ ' ' :: "567".data ++
      ',' :: "89".data)))).1 = "567".data ++ '.' :: "89".data :=
  claim3_amended "".data 'a' "1234".data "567".data "89".data
    (by decide) (by decide) (by decide) (by decide) (by decide) (by decide)

/-- C1 amended: for a line `<pre><boundary char> <sign?><g0> <g1> ... <gn>,<d>`
whose boundary character (the leading text last character) is not a digit,
whitespace, comma or minus, whose leftmost group has 1-3 digits, whose
remaining groups have exactly 3 digits, and whose decimal digits are
non-empty, `parse_amount` returns the exact normalized value (sign, the
concatenated group digits, a dot, and the decimal digits) together with
the offset of the amount substring, and slicing the line from that
offset reproduces the amount substring verbatim.  (The claim as stated
is refuted by `claim1_counterexample`: it also allowed interior groups
of fewer than 3 digits.) -/
theorem claim1_amended (p' : List Char) (b : Char) (sg g0 d : List Char)
    (gs : List (List Char))
    (hb1 : b.isDigit = false) (hb2 : pyIsSpace b = false) (hb3 : b ≠ ',')
    (hb4 : b ≠ '-')
    (hsg : sg = [] ∨ sg = ['-'])
    (hg01 : 1 ≤ g0.length) (hg03 : g0.length ≤ 3) (hg0 : ∀ c ∈ g0, c.isDigit = true)
    (hgs : ∀ g ∈ gs, g.length = 3 ∧ ∀ c ∈ g, c.isDigit = true)
    (hdne : d ≠ []) (hd : ∀ c ∈ d, c.isDigit = true) :
    parse_amount (p' ++ (b :: ' ' :: (sg ++ pyJoin [' '] (g0 :: gs) ++ ',' :: d))) =
      (sg ++ pyJoin [] (g0 :: gs) ++ '.' :: d, ((p'.length + 2 : Nat) : Int)) ∧
    (p' ++ (b :: ' ' :: (sg ++ pyJoin [' '] (g0 :: gs) ++ ',' :: d))).drop
        (p'.length + 2) = sg ++ pyJoin [' '] (g0 :: gs) ++ ',' :: d := by
  have hbs : b ≠ ' ' := by
    intro h
    rw [h] at hb2
    exact absurd hb2 (by decide)
  have hamtne : sg ++ pyJoin [' '] (g0 :: gs) ++ ',' :: d ≠ [] := by simp
  have hstrip := pyStrip_append_form p'
    (b :: ' ' :: (sg ++ pyJoin [' '] (g0 :: gs) ++ ',' :: d)) (by simp)
    (by intro c hc
        simp only [List.head?_cons, Option.some.injEq] at hc
        rw [← hc]; exact hb2)
    (revhead_no_ws_comma d (b :: ' ' :: (sg ++ pyJoin [' '] (g0 :: gs))) hd)
  have hdrop : (p' ++ (b :: ' ' :: (sg ++ pyJoin [' '] (g0 :: gs) ++ ',' :: d))).drop
      (p'.length + 2) = sg ++ pyJoin [' '] (g0 :: gs) ++ ',' :: d := by
    rw [show p' ++ (b :: ' ' :: (sg ++ pyJoin [' '] (g0 :: gs) ++ ',' :: d)) =
        (p' ++ [b, ' ']) ++ (sg ++ pyJoin [' '] (g0 :: gs) ++ ',' :: d) from by simp]
    have h := List.drop_left (p' ++ [b, ' ']) (sg ++ pyJoin [' '] (g0 :: gs) ++ ',' :: d)
    rw [show (p' ++ [b, ' ']).length = p'.length + 2 from by simp] at h
    exact h
  refine ⟨?_, hdrop⟩
  have hsl : ∃ hsv pdv,
      scanLine (p' ++ (b :: ' ' :: (sg ++ pyJoin [' '] (g0 :: gs) ++ ',' :: d))) =
        ⟨[], (g0 ++ []) :: (gs ++ []), d ++ [], sg, hsv, pdv⟩ := by
    unfold scanLine
    rw [hstrip]
    rw [show (pyStripL p' ++ (b :: ' ' :: (sg ++ pyJoin [' '] (g0 :: gs) ++
        ',' :: d))).reverse =
        d.reverse ++ ',' :: ((gs.map (fun g => ' ' :: g)).flatten.reverse ++
          (g0.reverse ++ (sg.reverse ++ ' ' :: b :: (pyStripL p').reverse)))
        from by simp [pyJoin_sp_cons]]
    rw [scan_digits d hd, scan_comma, scan_groups3 gs hgs _ _ rfl, scan_digits g0 hg0]
    rcases hsg with rfl | rfl
    · simp only [List.reverse_nil, List.nil_append]
      by_cases h3 : g0.length = 3
      · rw [scan_space3 _ _ (by simpa using h3)]
        rw [scan_other hb1 hb3 hb4 hbs]
        exact ⟨true, false, rfl⟩
      · rw [scan_space12 _ _ (by simpa using h3)
          (by simp only [List.length_append, List.length_nil]; omega)
          (by simp only [List.length_append, List.length_nil]; omega)]
        exact ⟨_, true, rfl⟩
    · simp only [List.reverse_cons, List.reverse_nil, List.nil_append, List.cons_append]
      rw [scan_minus_le _ _ (by simpa using hg03)]
      exact ⟨_, true, rfl⟩
  obtain ⟨hsv, pdv, hsl⟩ := hsl
  have hv : (parse_amount (p' ++ (b :: ' ' ::
      (sg ++ pyJoin [' '] (g0 :: gs) ++ ',' :: d)))).1 =
      sg ++ pyJoin [] (g0 :: gs) ++ '.' :: d := by
    rw [parse_amount_val, hsl]
    simp [groupsAfter, pyJoin_nil_sep]
  have hal : amountLiteral (p' ++ (b :: ' ' ::
      (sg ++ pyJoin [' '] (g0 :: gs) ++ ',' :: d))) =
      sg ++ pyJoin [' '] (g0 :: gs) ++ ',' :: d := by
    unfold amountLiteral
    rw [hsl]
    simp [groupsAfter, hdne]
  have hi : (parse_amount (p' ++ (b :: ' ' ::
      (sg ++ pyJoin [' '] (g0 :: gs) ++ ',' :: d)))).2 =
      ((p'.length + 2 : Nat) : Int) := by
    rw [parse_amount_idx, hal]
    rw [show p' ++ (b :: ' ' :: (sg ++ pyJoin [' '] (g0 :: gs) ++ ',' :: d)) =
        (p' ++ [b, ' ']) ++ (sg ++ pyJoin [' '] (g0 :: gs) ++ ',' :: d) from by simp]
    rw [rfind_suffix _ _ hamtne]
    simp
  exact Prod.ext hv hi

/-- C1 amended witness: the well-formed line
`"Some text -1 234 567,89"` yields value `"-1234567.89"`, offset `10`,
and the slice from the offset is the verbatim amount substring. -/
theorem claim1_amended_witness :
    parse_amount ("Some tex".data ++ ('t' :: ' ' :: (['-'] ++
        pyJoin [' '] ("1".data :: ["234".data, "567".data]) ++ ',' :: "89".data))) =
      (['-'] ++ pyJoin [] ("1".data :: ["234".data, "567".data]) ++ '.' :: "89".data,
        (("Some tex".data.length + 2 : Nat) : Int)) ∧
    ("Some tex".data ++ ('t' :: ' ' :: (['-'] ++
        pyJoin [' '] ("1".data :: ["234".data, "567".data]) ++ ',' :: "89".data))).drop
        ("Some tex".data.length + 2) =
      ['-'] ++ pyJoin [' '] ("1".data :: ["234".data, "567".data]) ++ ',' :: "89".data :=
  claim1_amended "Some tex".data 't' ['-'] "1".data "89".data
    ["234".data, "567".data] (by decide) (by decide) (by decide) (by decide)
    (Or.inr rfl) (by decide) (by decide) (by decide) (by decide) (by decide)
    (by decide)

/-- The normalized value determined by a final scan state
(`f"{integer}.{decimal}"` in the source). -/
def valueOf (st : ScanSt) : List Char :=
  st.sign ++ pyJoin [] (groupsAfter st) ++ '.' :: st.decimal

theorem parse_amount_val2 (line : List Char) :
    (parse_amount line).1 = valueOf (scanLine line) := rfl

/-- Rescanning a rendered amount literal (sign, groups joined by single
spaces, optional comma and fragment) of the shape the scan can produce
reproduces the same normalized value. -/
theorem scan_render (sg : List Char) (gs : List (List Char)) (dec : List Char)
    (hsg : sg = [] ∨ sg = ['-'])
    (hdigits : ∀ g ∈ gs, ∀ c ∈ g, c.isDigit = true)
    (hdec : ∀ c ∈ dec, c.isDigit = true)
    (htail : ∀ g ∈ gs.tail, g.length = 3)
    (hhead : ∀ h t, gs = h :: t → (h = [] → sg = ['-']) ∧ (sg = ['-'] → h.length ≤ 3))
    (hnil : gs = [] → sg = []) :
    valueOf (scan (sg ++ pyJoin [' '] gs ++
      (if dec ≠ [] then ',' :: dec else [])).reverse initSt) =
      sg ++ pyJoin [] gs ++ '.' :: dec := by
  have hCstep : ∀ rest, scan ((if dec ≠ [] then ',' :: dec else []).reverse ++ rest)
      initSt = scan rest ⟨[], [], dec, [], false, false⟩ := by
    intro rest
    by_cases hdnil : dec = []
    · subst hdnil
      rw [if_neg (by simp)]
      simp only [List.reverse_nil, List.nil_append]
      rfl
    · rw [show (if dec ≠ [] then ',' :: dec else []).reverse ++ rest =
          dec.reverse ++ ',' :: rest from by simp [hdnil]]
      rw [scan_digits dec hdec, scan_comma]
      congr 1
      simp [initSt]
  cases gs with
  | nil =>
    have hsgnil := hnil rfl
    subst hsgnil
    simp only [pyJoin, List.nil_append]
    rw [show (if dec ≠ [] then ',' :: dec else []).reverse =
        (if dec ≠ [] then ',' :: dec else []).reverse ++ [] from by simp]
    rw [hCstep, scan_nil]
    simp [valueOf, groupsAfter, pyJoin]
  | cons g0 t =>
    have htd : ∀ g ∈ t, g.length = 3 ∧ ∀ c ∈ g, c.isDigit = true :=
      fun g hg => ⟨htail g hg, hdigits g (List.mem_cons_of_mem g0 hg)⟩
    have hg0d : ∀ c ∈ g0, c.isDigit = true := hdigits g0 (List.mem_cons_self g0 t)
    rcases hsg with rfl | rfl
    · have g0ne : g0 ≠ [] := by
        intro h
        have := (hhead g0 t rfl).1 h
        simp at this
      rw [show (([] : List Char) ++ pyJoin [' '] (g0 :: t) ++
          (if dec ≠ [] then ',' :: dec else [])).reverse =
          (if dec ≠ [] then ',' :: dec else []).reverse ++
            ((t.map (fun g => ' ' :: g)).flatten.reverse ++ g0.reverse)
          from by simp [pyJoin_sp_cons]]
      rw [hCstep, scan_groups3 t htd _ _ rfl, scan_digits_end g0 hg0d]
      simp only [valueOf, groupsAfter]
      simp [g0ne, pyJoin_nil_sep]
    · rw [show ((['-'] : List Char) ++ pyJoin [' '] (g0 :: t) ++
          (if dec ≠ [] then ',' :: dec else [])).reverse =
          (if dec ≠ [] then ',' :: dec else []).reverse ++
            ((t.map (fun g => ' ' :: g)).flatten.reverse ++ (g0.reverse ++
              '-' :: ([] : List Char))) from by simp [pyJoin_sp_cons]]
      rw [hCstep, scan_groups3 t htd _ _ rfl, scan_digits g0 hg0d]
      rw [scan_minus_le _ _ (by
        simp only [List.length_append, List.length_nil]
        have := (hhead g0 t rfl).2 rfl
        omega)]
      simp only [valueOf, groupsAfter]
      rw [if_neg (by simp)]
      simp [pyJoin_nil_sep]

/-- C6 amended: re-extraction from `line[offset:]` yields the same
normalized value whenever the offset is non-negative and the trimmed
slice is exactly the reconstructed amount literal (i.e. the occurrence
`rfind` located is the line's trailing amount).  Without that proviso
the claim fails (`claim6_counterexample`), and for offset `-1` the
Python slice `line[-1:]` is just the last character. -/
theorem claim6_amended (line : List Char)
    (_h0 : 0 ≤ (parse_amount line).2)
    (h1 : pyStrip (pySliceFrom line (parse_amount line).2) = amountLiteral line) :
    (parse_amount (pySliceFrom line (parse_amount line).2)).1 =
      (parse_amount line).1 := by
  have hinv := scan_digit_inv (pyStrip line).reverse initSt
    (by simp [initSt]) (by simp [initSt]) (by simp [initSt]) (Or.inl rfl)
  have hshape := scan_shape (pyStrip line).reverse initSt (by simp [initSt]) rfl rfl
  have hdg : ∀ g ∈ groupsAfter (scan (pyStrip line).reverse initSt),
      ∀ c ∈ g, c.isDigit = true := by
    intro g hg c hc
    rcases mem_groupsAfter hg with rfl | hg2
    · exact hinv.1 c hc
    · exact hinv.2.1 g hg2 c hc
  have hr := scan_render (scan (pyStrip line).reverse initSt).sign
    (groupsAfter (scan (pyStrip line).reverse initSt))
    (scan (pyStrip line).reverse initSt).decimal
    hinv.2.2.2 hdg hinv.2.2.1 hshape.1 hshape.2.1 hshape.2.2
  have hF : amountLiteral line =
      (scan (pyStrip line).reverse initSt).sign ++
        pyJoin [' '] (groupsAfter (scan (pyStrip line).reverse initSt)) ++
        (if (scan (pyStrip line).reverse initSt).decimal ≠ []
          then ',' :: (scan (pyStrip line).reverse initSt).decimal else []) := rfl
  rw [parse_amount_val2, parse_amount_val2]
  unfold scanLine
  rw [h1, hF, hr]
  rfl

/-- C6 amended witness: at `"Some text 123,45"` the offset is `10`, the
trimmed slice equals the reconstructed literal `"123,45"`, and
re-extraction returns the same value. -/
theorem claim6_amended_witness :
    0 ≤ (parse_amount "Some text 123,45".data).2 ∧
    pyStrip (pySliceFrom "Some text 123,45".data
        (parse_amount "Some text 123,45".data).2) =
      amountLiteral "Some text 123,45".data ∧
    (parse_amount (pySliceFrom "Some text 123,45".data
        (parse_amount "Some text 123,45".data).2)).1 =
      (parse_amount "Some text 123,45".data).1 :=
  ⟨by decide, by decide, claim6_amended "Some text 123,45".data (by decide) (by decide)⟩

/-- C8: in the tabular pipeline, a row whose date fails to parse is
silently dropped (no record, no error), and every other row is yielded
in source order, positive case included. -/
theorem claim8_tabular_drop {α β : Type} (dp : List Char → Option α)
    (mkDec : List Char → β) (pre post : List Row) (r : Row) :
    (dp r.bokforingsdato = none →
      parse_debitcard dp mkDec (pre ++ r :: post) =
        parse_debitcard dp mkDec pre ++ parse_debitcard dp mkDec post) ∧
    (∀ d, dp r.bokforingsdato = some d →
      parse_debitcard dp mkDec (pre ++ r :: post) =
        parse_debitcard dp mkDec pre ++
          (d, mkDec (replaceCommaDot r.belop), r.tittel) ::
            parse_debitcard dp mkDec post) := by
  constructor
  · intro h
    unfold parse_debitcard
    rw [List.filterMap_append, List.filterMap_cons]
    simp [h]
  · intro d h
    unfold parse_debitcard
    rw [List.filterMap_append, List.filterMap_cons]
    simp [h]

/-- C8 witness: a one-row list with a failing date yields nothing, and
with a parsing date yields exactly that row's record. -/
theorem claim8_tabular_drop_witness :
    parse_debitcard (fun _ => (none : Option Nat)) (fun _ => (0 : Nat))
        ([] ++ Row.mk "1,5".data "A".data "x".data :: []) =
      parse_debitcard (fun _ => (none : Option Nat)) (fun _ => (0 : Nat)) [] ++
        parse_debitcard (fun _ => (none : Option Nat)) (fun _ => (0 : Nat)) [] ∧
    parse_debitcard (fun _ => (some 7 : Option Nat)) (fun _ => (0 : Nat))
        ([] ++ Row.mk "1,5".data "A".data "x".data :: []) =
      parse_debitcard (fun _ => (some 7 : Option Nat)) (fun _ => (0 : Nat)) [] ++
        (7, 0, "A".data) ::
          parse_debitcard (fun _ => (some 7 : Option Nat)) (fun _ => (0 : Nat)) [] :=
  ⟨(claim8_tabular_drop (fun _ => (none : Option Nat)) (fun _ => (0 : Nat))
      [] [] (Row.mk "1,5".data "A".data "x".data)).1 rfl,
   (claim8_tabular_drop (fun _ => (some 7 : Option Nat)) (fun _ => (0 : Nat))
      [] [] (Row.mk "1,5".data "A".data "x".data)).2 7 rfl⟩

/-- C9: in the freeform pipeline, when the external date parser cannot
interpret the first three leading tokens the null date is not guarded
against: `parse_payment_line` still returns a record whose date slot is
`none`, while the description and the amount are produced as usual
(independently of the date parser). -/
theorem claim9_null_date (line : List Char) {α β : Type} (dp : List Char → Option α)
    (mkDec : List Char → β)
    (h : dp (dateTokens (pyStrip (pySliceTo line (parse_amount line).2))) = none) :
    parse_payment_line dp mkDec line =
      (none, descText (pyStrip (pySliceTo line (parse_amount line).2)),
        mkDec (parse_amount line).1) := by
  exact Prod.ext h rfl

/-- C9 witness: a date parser that always fails still produces the
record, with a `none` date and the usual description and amount. -/
theorem claim9_null_date_witness :
    parse_payment_line (fun _ => (none : Option Nat)) (fun s => s)
        "29 mai 2025 X -49,00".data =
      (none, descText (pyStrip (pySliceTo "29 mai 2025 X -49,00".data
          (parse_amount "29 mai 2025 X -49,00".data).2)),
        (parse_amount "29 mai 2025 X -49,00".data).1) :=
  claim9_null_date "29 mai 2025 X -49,00".data
    (fun _ => (none : Option Nat)) (fun s => s) rfl
